import Mathlib

/-!
Verification development for the zkutil ZooKeeper client facade
(src/dbms/src/Common/ZooKeeper/ZooKeeper.h).

Only the header (declarations plus documentation comments) of the facade is
in the repository; the implementation bodies live elsewhere.  Following the
spec (sections 3, 4 and 7), the remote namespace is modelled as a finite
association list from paths to nodes, the transport primitives as pure
state-transforming functions returning a result code, and the facade
wrappers (throwing, try-, retrying, recursive) on top of them.  Definitions
whose doc comment starts with "Modelled from the spec" embed behaviour whose
C++ body is not under src/.
-/

set_option maxRecDepth 4000

namespace zkutil

/-- Error taxonomy of the facade, from spec section 7:
{Ok, RetryableTransient, NodeMissing, NodeExists, VersionMismatch,
NotEmpty, SessionExpired, OtherFatal}. -/
inductive Code where
  | Ok
  | RetryableTransient
  | NodeMissing
  | NodeExists
  | VersionMismatch
  | NotEmpty
  | SessionExpired
  | OtherFatal
deriving DecidableEq, Repr

/-- Node creation mode, from the header (CreateMode) and spec section 3. -/
inductive CreateMode where
  | Persistent
  | Ephemeral
  | PersistentSequential
  | EphemeralSequential
deriving DecidableEq, Repr

/-- A path is its list of segments ("/a/b" is [a, b]; [] is the root "/"). -/
abbrev Path := List String

/-- A stored node: payload, data version and creation mode
(the Stat fields the claims need, spec section 3). -/
structure Node where
  data : String
  version : Int
  mode : CreateMode
deriving DecidableEq, Repr

/-- The remote namespace: an association list from paths to nodes.
The root [] is implicit and always exists. -/
abbrev ZKState := List (Path × Node)

/-- Look a path up in the namespace. -/
def lookupNode (s : ZKState) (p : Path) : Option Node :=
  match s with
  | [] => none
  | e :: rest => if e.1 = p then some e.2 else lookupNode rest p

/-- Erase every entry at a given path. -/
def eraseNode (s : ZKState) (p : Path) : ZKState :=
  s.filter (fun e => decide (e.1 ≠ p))

/-- The child name c when q = p ++ [c], and none otherwise. -/
def childName (p q : Path) : Option String :=
  match q.getLast? with
  | none => none
  | some c => if q.dropLast = p then some c else none

/-- Names of the children of p present in the state. -/
def childNames (s : ZKState) (p : Path) : List String :=
  s.filterMap (fun e => childName p e.1)

/-- The parent of a path exists (the root [] always exists). -/
def parentExists (s : ZKState) (p : Path) : Bool :=
  p.dropLast = ([] : Path) || (lookupNode s p.dropLast).isSome

/-- Modelled from the spec: transport primitive create (body not under
src/).  Fails with NodeExists if the node is present, with NodeMissing if
the parent is absent, else inserts the node with version 0. -/
def createImpl (s : ZKState) (p : Path) (data : String) (mode : CreateMode) :
    Code × ZKState :=
  match lookupNode s p with
  | some _ => (Code.NodeExists, s)
  | none =>
    if parentExists s p then (Code.Ok, (p, ⟨data, 0, mode⟩) :: s)
    else (Code.NodeMissing, s)

/-- Modelled from the spec: transport primitive remove (body not under
src/).  NodeMissing if absent, NotEmpty if the node has children,
VersionMismatch unless version is -1 or matches; on success the node is
erased. -/
def removeImpl (s : ZKState) (p : Path) (version : Int) : Code × ZKState :=
  match lookupNode s p with
  | none => (Code.NodeMissing, s)
  | some n =>
    if childNames s p ≠ [] then (Code.NotEmpty, s)
    else if version = -1 ∨ version = n.version then (Code.Ok, eraseNode s p)
    else (Code.VersionMismatch, s)

/-- Modelled from the spec: transport primitive get (body not under src/).
Returns the payload, or NodeMissing. -/
def getImpl (s : ZKState) (p : Path) : Code × String :=
  match lookupNode s p with
  | none => (Code.NodeMissing, "")
  | some n => (Code.Ok, n.data)

/-- Modelled from the spec: transport primitive exists (body not under
src/). -/
def existsImpl (s : ZKState) (p : Path) : Code :=
  match lookupNode s p with
  | none => Code.NodeMissing
  | some _ => Code.Ok

/-- Modelled from the spec: transport primitive set (body not under src/).
NodeMissing if absent, VersionMismatch unless version is -1 or matches;
on success the payload is replaced and the version bumped. -/
def setImpl (s : ZKState) (p : Path) (data : String) (version : Int) :
    Code × ZKState :=
  match lookupNode s p with
  | none => (Code.NodeMissing, s)
  | some n =>
    if version = -1 ∨ version = n.version then
      (Code.Ok, (p, ⟨data, n.version + 1, n.mode⟩) :: eraseNode s p)
    else (Code.VersionMismatch, s)

/-- Modelled from the spec: transport primitive getChildren (body not under
src/). -/
def getChildrenImpl (s : ZKState) (p : Path) : Code × List String :=
  match lookupNode s p with
  | none => (Code.NodeMissing, [])
  | some _ => (Code.Ok, childNames s p)

/-! ## Facade wrappers (throwing and try- variants) -/

/-- Facade get (header line 115), modelled from the spec: raises
(Except.error) on any non-Ok classification.  Over the deterministic
transport the read-retry loop reduces to the single attempt shown here. -/
def get (s : ZKState) (p : Path) : Except Code String :=
  let r := getImpl s p
  if r.1 = Code.Ok then Except.ok r.2 else Except.error r.1

/-- Facade tryGet (header lines 117-119), modelled from the spec: absorbs
NodeMissing, returning false and handing the caller's buffer res back
untouched; returns (true, data) on success; other classifications raise. -/
def tryGet (s : ZKState) (p : Path) (res : String) : Except Code (Bool × String) :=
  let r := getImpl s p
  if r.1 = Code.Ok then Except.ok (true, r.2)
  else if r.1 = Code.NodeMissing then Except.ok (false, res)
  else Except.error r.1

/-! ## Read-only retry policy (header lines 42-47, spec section 4.1) -/

/-- Number of attempts allowed for read-only methods (header line 42,
spec section 4.1: fixed attempt budget, default small constant 3). -/
def retry_num : Nat := 3

/-- Modelled from the spec: bounded retry loop of the read-only wrappers
(bodies not under src/).  attempt i is the classification and value of the
i-th transport attempt; only RetryableTransient triggers another attempt,
and only while budget remains. -/
def retryLoop (attempt : Nat → Code × α) : Nat → Nat → Except Code α
  | 0, i => Except.error (attempt i).1
  | budget + 1, i =>
    match attempt i with
    | (Code.Ok, v) => Except.ok v
    | (Code.RetryableTransient, _) =>
      if budget = 0 then Except.error Code.RetryableTransient
      else retryLoop attempt budget (i + 1)
    | (c, _) => Except.error c

/-- Modelled from the spec: one transport attempt over a flaky connection —
when flaky i, attempt i reports RetryableTransient (with a junk value)
instead of the deterministic outcome. -/
def flakyAttempt (flaky : Nat → Bool) (junk : α) (outcome : Code × α) (i : Nat) :
    Code × α :=
  if flaky i then (Code.RetryableTransient, junk) else outcome

/-- Modelled from the spec: a read-only facade call (exists, get,
getChildren, multi-read): the attempt is retried through retryLoop with the
retry_num budget. -/
def readRetried (flaky : Nat → Bool) (junk : α) (outcome : Code × α) :
    Except Code α :=
  retryLoop (flakyAttempt flaky junk outcome) retry_num 0

/-- Modelled from the spec: a mutating facade call (create, remove, set,
multi with writes): exactly one transport attempt is made, never retried
(header line 45: it leads to problems of the double-delete type). -/
def writeOnce (flaky : Nat → Bool) (junk : α) (outcome : Code × α) :
    Except Code α :=
  let a := flakyAttempt flaky junk outcome 0
  if a.1 = Code.Ok then Except.ok a.2 else Except.error a.1

/-- Facade get over a flaky transport: read-only, hence retried. -/
def getRetried (flaky : Nat → Bool) (s : ZKState) (p : Path) :
    Except Code String :=
  readRetried flaky "" (getImpl s p)

/-- Facade create over a flaky transport: mutating, hence never retried. -/
def createNoRetry (flaky : Nat → Bool) (s : ZKState) (p : Path)
    (data : String) (mode : CreateMode) : Except Code ZKState :=
  writeOnce flaky s ((createImpl s p data mode).1, (createImpl s p data mode).2)

/-- Facade remove over a flaky transport: mutating, hence never retried. -/
def removeNoRetry (flaky : Nat → Bool) (s : ZKState) (p : Path) (version : Int) :
    Except Code ZKState :=
  writeOnce flaky s (removeImpl s p version)

/-- Facade set over a flaky transport: mutating, hence never retried. -/
def setNoRetry (flaky : Nat → Bool) (s : ZKState) (p : Path) (data : String)
    (version : Int) : Except Code ZKState :=
  writeOnce flaky s (setImpl s p data version)

/-! ## Transactions (header lines 145-155, spec section 4.3) -/

/-- A sub-operation of an atomic multi-transaction (spec section 3:
a tagged union over Create, Remove, Set, Check). -/
inductive Request where
  | create (p : Path) (data : String) (mode : CreateMode)
  | remove (p : Path) (version : Int)
  | set (p : Path) (data : String) (version : Int)
  | check (p : Path) (version : Int)
deriving DecidableEq, Repr

/-- Modelled from the spec: apply one sub-operation to the scratch state. -/
def applyRequest (s : ZKState) (r : Request) : Code × ZKState :=
  match r with
  | Request.create p d m => createImpl s p d m
  | Request.remove p v => removeImpl s p v
  | Request.set p d v => setImpl s p d v
  | Request.check p v =>
    match lookupNode s p with
    | none => (Code.NodeMissing, s)
    | some n =>
      if v = -1 ∨ v = n.version then (Code.Ok, s) else (Code.VersionMismatch, s)

/-- Apply every request in order, ignoring result codes (the committed
state of a fully successful transaction). -/
def applyAll (s : ZKState) : List Request → ZKState
  | [] => s
  | r :: rs => applyAll (applyRequest s r).2 rs

/-- Modelled from the spec: walk the requests in order on a scratch state,
stopping at the first non-Ok sub-operation.  Returns the aggregate code
(first failure, or Ok), one response code per request in request order
(requests after the failure are marked OtherFatal: not attempted), and the
scratch state reached. -/
def multiWalk (s : ZKState) : List Request → Code × List Code × ZKState
  | [] => (Code.Ok, [], s)
  | r :: rs =>
    let a := applyRequest s r
    if a.1 = Code.Ok then
      let w := multiWalk a.2 rs
      (w.1, Code.Ok :: w.2.1, w.2.2)
    else
      (a.1, a.1 :: rs.map (fun _ => Code.OtherFatal), s)

/-- Modelled from the spec: multiImpl (header line 224, body not under
src/) — executes the batch atomically: the walked state is committed only
when every sub-operation succeeded; on any failure the original state is
kept (all sub-operations apply or none do). -/
def multiImpl (s : ZKState) (reqs : List Request) : Code × List Code × ZKState :=
  let w := multiWalk s reqs
  if w.1 = Code.Ok then w else (w.1, w.2.1, s)

/-- Facade tryMultiNoThrow (header lines 151-155): just an alias of
multiImpl — always returns the code and the responses, never raises. -/
def tryMultiNoThrow (s : ZKState) (reqs : List Request) :
    Code × List Code × ZKState :=
  multiImpl s reqs

/-- Facade multi (header lines 145-147), modelled from the spec: throws
(Except.error) on every error, otherwise yields the responses and the
committed state. -/
def multi (s : ZKState) (reqs : List Request) :
    Except Code (List Code × ZKState) :=
  let r := multiImpl s reqs
  if r.1 = Code.Ok then Except.ok (r.2.1, r.2.2) else Except.error r.1

/-! ## createAncestors (header lines 99-101, spec section 4.2) -/

/-- The strict ancestors of a path, root-first: its proper non-empty
prefixes (for [a,b,c]: [[a], [a,b]]). -/
def strictAncestors (p : Path) : List Path :=
  (List.range (p.length - 1)).map (fun i => p.take (i + 1))

/-- Create each listed path in order as Persistent with empty contents,
keeping the state unchanged on NodeExists (createImpl already does). -/
def createEach (s : ZKState) : List Path → ZKState
  | [] => s
  | q :: qs => createEach (createImpl s q "" CreateMode.Persistent).2 qs

/-- Modelled from the spec: facade createAncestors (header lines 99-101):
creates all non-existent strict ancestors of the path root-first, as
Persistent with empty contents, ignoring NodeExists; never the node
itself. -/
def createAncestors (s : ZKState) (p : Path) : ZKState :=
  createEach s (strictAncestors p)

/-- A root-first ancestor chain: each listed path is non-empty and extends
the previous one (or the given start) by exactly one segment. -/
def ancChain : Path → List Path → Prop
  | _, [] => True
  | prev, q :: qs => q ≠ [] ∧ q.dropLast = prev ∧ ancChain q qs

/-! ## waitForDisappear (header lines 169-170, spec section 4.2) -/

/-- Modelled from the spec: the waitForDisappear loop (body not under
src/): check existence; if absent return; otherwise register a one-shot
existence watch, block until it fires, and re-check.  obs k is the
existence observed at the k-th check; fuel bounds the modelled loop (the
real loop is unbounded).  Returns the number of watch waits performed, or
none when fuel runs out. -/
def waitLoop (obs : Nat → Bool) : Nat → Nat → Option Nat
  | 0, _ => none
  | fuel + 1, i => if obs i then waitLoop obs fuel (i + 1) else some i

/-- Facade waitForDisappear, modelled from the spec: run the check/wait
loop from the first check. -/
def waitForDisappear (obs : Nat → Bool) (fuel : Nat) : Option Nat :=
  waitLoop obs fuel 0

/-! ## Session lifecycle (header lines 53-81) -/

/-- Connection-level state of one ZooKeeper session handle (header lines
229-232 plus the expiry flag of line 81). -/
structure Session where
  hosts : String
  identity : String
  session_timeout_ms : Int
  chroot : String
  expired : Bool
deriving DecidableEq, Repr

/-- Modelled from the spec: startNewSession (header lines 75-78) — a const
method: the receiver remains unchanged, and a new session constructed from
the same connection parameters (hosts, identity, timeout, chroot) is
returned.  The pair is (receiver after the call, returned new session);
freshness of the returned object is by construction of a new value. -/
def startNewSession (z : Session) : Session × Session :=
  (z, { hosts := z.hosts, identity := z.identity,
        session_timeout_ms := z.session_timeout_ms, chroot := z.chroot,
        expired := false })

/-! ## EphemeralNodeHolder destruction (header lines 276-287) -/

/-- Result codes tryRemove absorbs instead of raising (header lines
106-110): the node does not exist, versions do not match, the node has
children; Ok is no error at all. -/
def tryRemoveAbsorbs (c : Code) : Bool :=
  c = Code.Ok || c = Code.NodeMissing || c = Code.VersionMismatch ||
    c = Code.NotEmpty

/-- Modelled from the spec: one transport attempt of remove over a
transport that may fail at session/connection level: fault = some c means
the attempt reports c without touching the state. -/
def removeAttempt (fault : Option Code) (s : ZKState) (p : Path)
    (version : Int) : Code × ZKState :=
  match fault with
  | some c => (c, s)
  | none => removeImpl s p version

/-- Facade tryRemove over a possibly faulty transport (header lines
106-110), modelled from the spec: absorbed codes are returned, any other
classification raises. -/
def tryRemoveF (fault : Option Code) (s : ZKState) (p : Path) (version : Int) :
    Except Code (Code × ZKState) :=
  let a := removeAttempt fault s p version
  if tryRemoveAbsorbs a.1 then Except.ok a else Except.error a.1

/-- Destructor body of EphemeralNodeHolder (header lines 276-287): calls
tryRemove inside try/catch; when tryRemove raises, the error is swallowed,
the CannotRemoveEphemeralNode counter is incremented once and a non-fatal
diagnostic logged.  Returns (state afterwards, number of counter
increments); the total return type is the absence of any escaping error. -/
def ephemeralDtor (fault : Option Code) (s : ZKState) (p : Path) :
    ZKState × Nat :=
  match tryRemoveF fault s p (-1) with
  | Except.ok a => (a.2, 0)
  | Except.error _ => (s, 1)

/-! ## Recursive removal (header lines 159-167, 215-216, spec section 4.2) -/

/-- The keys (paths) present in the state. -/
def keys (s : ZKState) : List Path :=
  s.map Prod.fst

/-- Well-formed namespace: every stored path is non-empty and its parent is
the root or is itself stored (spec section 3: hierarchical namespace). -/
def WFz (s : ZKState) : Prop :=
  ∀ e ∈ s, e.1 ≠ [] ∧ (e.1.dropLast = ([] : Path) ∨ e.1.dropLast ∈ keys s)

/-- Number of stored strict descendants of p. -/
def strictDescCount (s : ZKState) (p : Path) : Nat :=
  s.countP (fun e => decide (p <+: e.1 ∧ p ≠ e.1))

mutual

/-- Modelled from the spec: tryRemoveChildrenRecursive (header line 216,
spec section 4.2, body not under src/): list the children — a missing node
at this step is success — then post-order remove each child subtree.  fuel
bounds the modelled recursion depth (the real recursion follows the tree);
the Bool records that every transport code met along the way was an
absorbed, non-raising one. -/
def tryRemoveChildrenRec (fuel : Nat) (s : ZKState) (p : Path) :
    ZKState × Bool :=
  match fuel with
  | 0 => (s, true)
  | f + 1 =>
    match getChildrenImpl s p with
    | (Code.NodeMissing, _) => (s, true)
    | (_, cs) => tryRemoveKids f s p cs
termination_by (fuel, 0, 0)

/-- Modelled from the spec: remove each listed child subtree in turn —
recursively remove the grandchildren, then tryRemove the child itself,
treating a missing node as success. -/
def tryRemoveKids (fuel : Nat) (s : ZKState) (p : Path) :
    List String → ZKState × Bool
  | [] => (s, true)
  | c :: cs =>
    let r1 := tryRemoveChildrenRec fuel s (p ++ [c])
    let a := removeImpl r1.1 (p ++ [c]) (-1)
    let r2 := tryRemoveKids fuel a.2 p cs
    (r2.1, r1.2 && tryRemoveAbsorbs a.1 && r2.2)
termination_by cs => (fuel, 1, cs.length)

end

/-- Fuel the facade runs the modelled recursion with: the number of stored
nodes bounds the depth of any chain of descendants. -/
def removalFuel (s : ZKState) : Nat :=
  s.length + 1

/-- Facade tryRemoveRecursive (header lines 163-167), modelled from the
spec: remove the children recursively, then tryRemove the node itself; a
node missing at any step is success.  Returns the final state and whether
no step raised. -/
def tryRemoveRecursive (s : ZKState) (p : Path) : ZKState × Bool :=
  let r := tryRemoveChildrenRec (removalFuel s) s p
  let a := removeImpl r.1 p (-1)
  (a.2, r.2 && tryRemoveAbsorbs a.1)

/-! ## Basic lemmas about the state model -/

theorem keys_cons (e : Path × Node) (s : ZKState) :
    keys (e :: s) = e.1 :: keys s := rfl

theorem lookupNode_eq_none_iff (s : ZKState) (p : Path) :
    lookupNode s p = none ↔ p ∉ keys s := by
  induction s with
  | nil =>
    constructor
    · intro _ h
      exact absurd h (List.not_mem_nil p)
    · intro _
      rfl
  | cons e rest ih =>
    rw [keys_cons]
    unfold lookupNode
    by_cases he : e.1 = p
    · rw [if_pos he]
      constructor
      · intro h
        exact Option.noConfusion h
      · intro h
        exact absurd (he ▸ List.mem_cons_self e.1 (keys rest)) h
    · rw [if_neg he]
      rw [ih]
      constructor
      · intro h hm
        rcases List.mem_cons.mp hm with h1 | h1
        · exact he h1.symm
        · exact h h1
      · intro h hm
        exact h (List.mem_cons_of_mem _ hm)

theorem mem_keys_of_lookup (s : ZKState) (p : Path) (n : Node)
    (h : lookupNode s p = some n) : p ∈ keys s := by
  by_contra hc
  rw [← lookupNode_eq_none_iff] at hc
  rw [h] at hc
  exact Option.noConfusion hc

theorem keys_exists_entry (s : ZKState) (p : Path) (h : p ∈ keys s) :
    ∃ n, (p, n) ∈ s := by
  rcases List.mem_map.mp h with ⟨e, he, hfst⟩
  refine ⟨e.2, ?_⟩
  rw [← hfst, Prod.mk.eta]
  exact he

theorem lookupNode_eraseNode_self (s : ZKState) (p : Path) :
    lookupNode (eraseNode s p) p = none := by
  rw [lookupNode_eq_none_iff]
  intro h
  rcases keys_exists_entry _ _ h with ⟨n, hn⟩
  have := List.of_mem_filter hn
  simp at this

theorem lookupNode_cons (e : Path × Node) (s : ZKState) (p : Path) :
    lookupNode (e :: s) p = if e.1 = p then some e.2 else lookupNode s p := rfl

theorem lookupNode_eraseNode_ne (s : ZKState) (p q : Path) (h : q ≠ p) :
    lookupNode (eraseNode s q) p = lookupNode s p := by
  induction s with
  | nil => rfl
  | cons e rest ih =>
    unfold eraseNode at ih ⊢
    by_cases heq : e.1 = q
    · rw [List.filter_cons_of_neg (by simp [heq])]
      rw [ih, lookupNode_cons]
      rw [if_neg (by rw [heq]; exact fun hc => h hc)]
    · rw [List.filter_cons_of_pos (by simp [heq])]
      rw [lookupNode_cons, lookupNode_cons]
      by_cases he : e.1 = p
      · rw [if_pos he, if_pos he]
      · rw [if_neg he, if_neg he]
        exact ih

theorem eraseNode_sublist (s : ZKState) (p : Path) :
    List.Sublist (eraseNode s p) s :=
  List.filter_sublist s

theorem sublist_keys (s1 s : ZKState) (h : List.Sublist s1 s) :
    List.Sublist (keys s1) (keys s) :=
  List.Sublist.map Prod.fst h

theorem lookupNode_none_of_sublist (s1 s : ZKState) (p : Path)
    (h : List.Sublist s1 s) (hn : lookupNode s p = none) :
    lookupNode s1 p = none := by
  rw [lookupNode_eq_none_iff] at hn ⊢
  intro hc
  exact hn ((sublist_keys s1 s h).subset hc)

theorem childName_eq_some_iff (p q : Path) (c : String) :
    childName p q = some c ↔ q = p ++ [c] := by
  constructor
  · intro h
    unfold childName at h
    split at h
    · exact Option.noConfusion h
    · rename_i b hq
      split at h
      · rename_i hd
        have hbc : b = c := by injection h
        have hgl : q.dropLast ++ [b] = q :=
          List.dropLast_append_getLast? b (Option.mem_def.mpr hq)
        calc q = q.dropLast ++ [b] := hgl.symm
          _ = p ++ [c] := by rw [hd, hbc]
      · exact Option.noConfusion h
  · intro h
    subst h
    unfold childName
    rw [List.getLast?_concat]
    simp [List.dropLast_concat]

theorem mem_childNames_iff (s : ZKState) (p : Path) (c : String) :
    c ∈ childNames s p ↔ ∃ n, (p ++ [c], n) ∈ s := by
  unfold childNames
  rw [List.mem_filterMap]
  constructor
  · rintro ⟨e, he, hc⟩
    rw [childName_eq_some_iff] at hc
    exact ⟨e.2, by rwa [← hc]⟩
  · rintro ⟨n, hn⟩
    exact ⟨(p ++ [c], n), hn, (childName_eq_some_iff p _ c).mpr rfl⟩

theorem childNames_eq_nil_of_no_child (s : ZKState) (p : Path)
    (h : ∀ c, ¬ (p ++ [c]) ∈ keys s) : childNames s p = [] := by
  rcases hc : childNames s p with _ | ⟨c, cs⟩
  · rfl
  · exfalso
    have hm : c ∈ childNames s p := by rw [hc]; exact List.mem_cons_self c cs
    rcases (mem_childNames_iff s p c).mp hm with ⟨n, hn⟩
    exact h c (List.mem_map.mpr ⟨(p ++ [c], n), hn, rfl⟩)

/-! ## C10: startNewSession is const and copies the connection parameters -/

/-- C10: startNewSession leaves the receiver session completely unchanged
(const on hosts, identity, session timeout, chroot and expiry state) and
returns a new session built from the same connection parameters, with a
fresh unexpired state. -/
theorem startNewSession_const_frame (z : Session) :
    (startNewSession z).1 = z ∧
    (startNewSession z).2.hosts = z.hosts ∧
    (startNewSession z).2.identity = z.identity ∧
    (startNewSession z).2.session_timeout_ms = z.session_timeout_ms ∧
    (startNewSession z).2.chroot = z.chroot ∧
    (startNewSession z).2.expired = false := by
  exact ⟨rfl, rfl, rfl, rfl, rfl, rfl⟩

/-! ## C5: EphemeralNodeHolder destruction swallows errors -/

theorem tryRemoveAbsorbs_removeImpl (s : ZKState) (p : Path) (v : Int) :
    tryRemoveAbsorbs (removeImpl s p v).1 = true := by
  unfold removeImpl
  rcases h : lookupNode s p with _ | n
  · simp [tryRemoveAbsorbs]
  · by_cases h1 : childNames s p = []
    · by_cases h2 : v = -1 ∨ v = n.version
      · simp [h1, h2, tryRemoveAbsorbs]
      · simp [h1, h2, tryRemoveAbsorbs]
    · simp [h1, tryRemoveAbsorbs]

/-- C5: the EphemeralNodeHolder destructor attempts a best-effort remove of
its node through tryRemove; its return type is total so no error propagates
out of destruction, and the CannotRemoveEphemeralNode counter is
incremented exactly once when tryRemove raises and not at all otherwise;
over a fault-free transport the remove really is attempted on the state. -/
theorem ephemeralDtor_swallows (fault : Option Code) (s : ZKState) (p : Path) :
    (∀ c, tryRemoveF fault s p (-1) = Except.error c →
      ephemeralDtor fault s p = (s, 1)) ∧
    (∀ a, tryRemoveF fault s p (-1) = Except.ok a →
      ephemeralDtor fault s p = (a.2, 0)) ∧
    (ephemeralDtor none s p).1 = (removeImpl s p (-1)).2 := by
  refine ⟨?_, ?_, ?_⟩
  · intro c hc
    unfold ephemeralDtor
    rw [hc]
  · intro a ha
    unfold ephemeralDtor
    rw [ha]
  · unfold ephemeralDtor tryRemoveF removeAttempt
    simp [tryRemoveAbsorbs_removeImpl]

/-- Witness for C5 at a faulty transport reporting SessionExpired: the
destructor swallows the raise, leaves the state alone and counts one
failure. -/
theorem ephemeralDtor_swallows_witness :
    ephemeralDtor (some Code.SessionExpired) [] ["a"] = ([], 1) :=
  (ephemeralDtor_swallows (some Code.SessionExpired) [] ["a"]).1
    Code.SessionExpired rfl

/-! ## C7: tryGet on a missing node -/

/-- C7: for a non-existent path, tryGet returns false handing back the
caller's buffer untouched, and get raises NodeMissing. -/
theorem tryGet_false_get_raises (s : ZKState) (p : Path) (res : String)
    (h : lookupNode s p = none) :
    tryGet s p res = Except.ok (false, res) ∧
    get s p = Except.error Code.NodeMissing := by
  unfold tryGet get getImpl
  rw [h]
  simp

/-- Witness for C7 on the empty namespace. -/
theorem tryGet_false_get_raises_witness :
    tryGet [] ["a"] "buf" = Except.ok (false, "buf") ∧
    get [] ["a"] = Except.error Code.NodeMissing :=
  tryGet_false_get_raises [] ["a"] "buf" rfl

/-! ## C9: tryMultiNoThrow is total -/

theorem multiWalk_length (reqs : List Request) :
    ∀ s, (multiWalk s reqs).2.1.length = reqs.length := by
  induction reqs with
  | nil =>
    intro s
    rfl
  | cons r rs ih =>
    intro s
    unfold multiWalk
    by_cases h : (applyRequest s r).1 = Code.Ok
    · simp only [h, if_pos]
      simp [ih]
    · simp only [h, if_neg, if_false]
      simp

/-- C9: tryMultiNoThrow never raises — it is exactly the alias of the
non-throwing multiImpl (whose total return type always carries the result
code) and it fills the responses with one code per request. -/
theorem tryMultiNoThrow_total (s : ZKState) (reqs : List Request) :
    tryMultiNoThrow s reqs = multiImpl s reqs ∧
    (tryMultiNoThrow s reqs).2.1.length = reqs.length := by
  refine ⟨rfl, ?_⟩
  unfold tryMultiNoThrow multiImpl
  by_cases h : (multiWalk s reqs).1 = Code.Ok
  · simp only [h, if_pos]
    exact multiWalk_length reqs s
  · simp only [h, if_neg, if_false]
    exact multiWalk_length reqs s

/-! ## C8: waitForDisappear returns once the node is absent -/

theorem waitLoop_finds (obs : Nat → Bool) :
    ∀ fuel i k, obs (i + k) = false → k < fuel →
      ∃ j, j ≤ k ∧ waitLoop obs fuel i = some (i + j) := by
  intro fuel
  induction fuel with
  | zero =>
    intro i k _ hk
    exact absurd hk (Nat.not_lt_zero k)
  | succ f ih =>
    intro i k hobs hk
    by_cases h0 : obs i = true
    · have hk0 : k ≠ 0 := by
        intro hc
        subst hc
        rw [Nat.add_zero] at hobs
        rw [h0] at hobs
        exact Bool.noConfusion hobs
      obtain ⟨k1, rfl⟩ : ∃ k1, k = k1 + 1 := ⟨k - 1, by omega⟩
      have hobs1 : obs (i + 1 + k1) = false := by
        rw [show i + 1 + k1 = i + (k1 + 1) by omega]
        exact hobs
      rcases ih (i + 1) k1 hobs1 (by omega) with ⟨j, hj, hloop⟩
      refine ⟨j + 1, by omega, ?_⟩
      unfold waitLoop
      rw [h0]
      simp only [if_true]
      rw [hloop]
      congr 1
      omega
    · have h0f : obs i = false := by
        cases hof : obs i
        · rfl
        · exact absurd hof h0
      refine ⟨0, Nat.zero_le k, ?_⟩
      unfold waitLoop
      rw [h0f]
      simp

/-- C8: waitForDisappear returns immediately (zero watch waits) when the
node is absent at the first check; and when the node is observed absent at
the k-th check — removal while the caller waits — the loop returns without
error after at most k watch waits (one re-check per one-shot watch signal,
no unbounded polling), fuel being only the bound of the modelled loop. -/
theorem waitForDisappear_returns (obs : Nat → Bool) (fuel k : Nat) :
    (obs 0 = false → 1 ≤ fuel → waitForDisappear obs fuel = some 0) ∧
    (obs k = false → k < fuel →
      ∃ j, j ≤ k ∧ waitForDisappear obs fuel = some j) := by
  constructor
  · intro h0 hf
    obtain ⟨f, rfl⟩ : ∃ f, fuel = f + 1 := ⟨fuel - 1, by omega⟩
    unfold waitForDisappear waitLoop
    rw [h0]
    simp
  · intro hk hf
    have h := waitLoop_finds obs fuel 0 k (by simpa using hk) hf
    rcases h with ⟨j, hj, hloop⟩
    exact ⟨j, hj, by simpa using hloop⟩

/-- Witness for C8: absent at the first check returns at once; a node
observed present at checks 0 and 1 and absent at check 2 is noticed within
two watch waits. -/
theorem waitForDisappear_returns_witness :
    waitForDisappear (fun _ => false) 1 = some 0 ∧
    ∃ j, j ≤ 2 ∧ waitForDisappear (fun i => decide (i < 2)) 5 = some j :=
  ⟨(waitForDisappear_returns (fun _ => false) 1 0).1 rfl (by decide),
   (waitForDisappear_returns (fun i => decide (i < 2)) 5 2).2 (by decide)
     (by decide)⟩

/-! ## C2: retry only transient codes, only for reads, only within budget -/

theorem retryLoop_ok {α : Type} (attempt : Nat → Code × α) :
    ∀ budget i m v, m < budget →
      (∀ j, j < m → (attempt (i + j)).1 = Code.RetryableTransient) →
      attempt (i + m) = (Code.Ok, v) →
      retryLoop attempt budget i = Except.ok v := by
  intro budget
  induction budget with
  | zero =>
    intro i m v hm
    exact absurd hm (Nat.not_lt_zero m)
  | succ b ih =>
    intro i m v hm hts hok
    match m with
    | 0 =>
      rw [Nat.add_zero] at hok
      unfold retryLoop
      rw [hok]
    | m1 + 1 =>
      have h0 : (attempt i).1 = Code.RetryableTransient := by
        have := hts 0 (by omega)
        rwa [Nat.add_zero] at this
      have hb : b ≠ 0 := by omega
      rcases hai : attempt i with ⟨c, x⟩
      rw [hai] at h0
      simp only at h0
      subst h0
      unfold retryLoop
      rw [hai]
      simp only [if_neg hb]
      apply ih (i + 1) m1 v (by omega)
      · intro j hj
        have := hts (j + 1) (by omega)
        rwa [show i + (j + 1) = i + 1 + j by omega] at this
      · rwa [show i + 1 + m1 = i + (m1 + 1) by omega]

theorem retryLoop_exhaust {α : Type} (attempt : Nat → Code × α) :
    ∀ budget i, 1 ≤ budget →
      (∀ j, j < budget → (attempt (i + j)).1 = Code.RetryableTransient) →
      retryLoop attempt budget i = Except.error Code.RetryableTransient := by
  intro budget
  induction budget with
  | zero =>
    intro i h
    exact absurd h (by omega)
  | succ b ih =>
    intro i _ hts
    have h0 : (attempt i).1 = Code.RetryableTransient := by
      have := hts 0 (by omega)
      rwa [Nat.add_zero] at this
    rcases hai : attempt i with ⟨c, x⟩
    rw [hai] at h0
    simp only at h0
    subst h0
    unfold retryLoop
    rw [hai]
    by_cases hb : b = 0
    · simp only [if_pos hb]
    · simp only [if_neg hb]
      apply ih (i + 1) (by omega)
      intro j hj
      have := hts (j + 1) (by omega)
      rwa [show i + (j + 1) = i + 1 + j by omega] at this

/-- C2: the retry policy of the facade — a read-only call (get shown, via
the shared readRetried combinator) transient on attempts 1..N-1 and Ok on
attempt N within the retry_num budget returns the correct result; a call
transient through the whole budget raises RetryableTransient; mutating
calls (create, remove, set) make exactly one transport attempt and are
never retried: a transient first attempt raises immediately, whatever
later attempts would have reported. -/
theorem readRetried_writeOnce_policy (flaky : Nat → Bool) (s : ZKState)
    (p : Path) (d : String) (md : CreateMode) (v : Int) (N : Nat) (n : Node) :
    ((1 ≤ N ∧ N ≤ retry_num ∧ (∀ i, i < N - 1 → flaky i = true) ∧
        flaky (N - 1) = false ∧ lookupNode s p = some n) →
      getRetried flaky s p = Except.ok n.data) ∧
    ((∀ i, i < retry_num → flaky i = true) →
      getRetried flaky s p = Except.error Code.RetryableTransient) ∧
    (flaky 0 = true →
      createNoRetry flaky s p d md = Except.error Code.RetryableTransient ∧
      removeNoRetry flaky s p v = Except.error Code.RetryableTransient ∧
      setNoRetry flaky s p d v = Except.error Code.RetryableTransient) := by
  refine ⟨?_, ?_, ?_⟩
  · rintro ⟨h1, h2, hts, hN, hlook⟩
    unfold getRetried readRetried
    apply retryLoop_ok (flakyAttempt flaky "" (getImpl s p)) retry_num 0 (N - 1)
    · unfold retry_num at h2 ⊢
      omega
    · intro j hj
      unfold flakyAttempt
      rw [Nat.zero_add, hts j hj]
      simp
    · unfold flakyAttempt
      rw [Nat.zero_add, hN]
      simp only [Bool.false_eq_true, if_false]
      unfold getImpl
      rw [hlook]
  · intro hts
    unfold getRetried readRetried
    apply retryLoop_exhaust (flakyAttempt flaky "" (getImpl s p)) retry_num 0
    · unfold retry_num
      omega
    · intro j hj
      unfold flakyAttempt
      rw [Nat.zero_add, hts j hj]
      simp
  · intro h0
    have hw : ∀ (β : Type) (junk : β) (outcome : Code × β),
        writeOnce flaky junk outcome = Except.error Code.RetryableTransient := by
      intro β junk outcome
      unfold writeOnce flakyAttempt
      rw [h0]
      simp
    exact ⟨hw ZKState s _, hw ZKState s _, hw ZKState s _⟩

/-- Witness for C2: a call transient on the first attempt and Ok on the
second returns the stored payload; an always-transient call exhausts the
budget and raises; a mutating create with a transient first attempt raises
at once. -/
theorem readRetried_writeOnce_policy_witness :
    getRetried (fun i => decide (i = 0)) [(["a"], ⟨"x", 0, CreateMode.Persistent⟩)] ["a"] =
      Except.ok "x" ∧
    getRetried (fun _ => true) [] ["a"] = Except.error Code.RetryableTransient ∧
    createNoRetry (fun _ => true) [] ["a"] "d" CreateMode.Persistent =
      Except.error Code.RetryableTransient :=
  ⟨(readRetried_writeOnce_policy (fun i => decide (i = 0))
      [(["a"], ⟨"x", 0, CreateMode.Persistent⟩)] ["a"] "d" CreateMode.Persistent
      (-1) 2 ⟨"x", 0, CreateMode.Persistent⟩).1
      ⟨by decide, by decide, by decide, by decide, by decide⟩,
   ((readRetried_writeOnce_policy (fun _ => true) [] ["a"] "d"
      CreateMode.Persistent (-1) 1 ⟨"", 0, CreateMode.Persistent⟩).2.1
      (by decide)),
   ((readRetried_writeOnce_policy (fun _ => true) [] ["a"] "d"
      CreateMode.Persistent (-1) 1 ⟨"", 0, CreateMode.Persistent⟩).2.2
      rfl).1⟩

/-! ## C3: multi is atomic, responses one per request in order -/

theorem multiWalk_ok_applies (reqs : List Request) :
    ∀ s, (multiWalk s reqs).1 = Code.Ok →
      (multiWalk s reqs).2.2 = applyAll s reqs ∧
      ∀ cd ∈ (multiWalk s reqs).2.1, cd = Code.Ok := by
  induction reqs with
  | nil =>
    intro s _
    exact ⟨rfl, by intro cd h; exact absurd h (List.not_mem_nil cd)⟩
  | cons r rs ih =>
    intro s hok
    unfold multiWalk at hok ⊢
    by_cases h : (applyRequest s r).1 = Code.Ok
    · simp only [h, if_pos] at hok ⊢
      have := ih (applyRequest s r).2 (by simpa using hok)
      refine ⟨by simpa [applyAll] using this.1, ?_⟩
      intro cd hcd
      simp only [List.mem_cons] at hcd
      rcases hcd with h1 | h1
      · exact h1
      · exact this.2 cd (by simpa using h1)
    · simp only [h, if_neg, if_false] at hok

/-- C3: multi is atomic — when any sub-operation fails the underlying
multiImpl keeps the original state (no sub-operation applies) and multi
raises; on success the committed state is the in-order application of every
request and every response code is Ok; responses come one per request in
request order; in particular multi [create /x, set /missing v] on a state
holding neither /x nor /missing raises and leaves /x absent. -/
theorem multiImpl_eq (s : ZKState) (reqs : List Request) :
    multiImpl s reqs =
      if (multiWalk s reqs).1 = Code.Ok then multiWalk s reqs
      else ((multiWalk s reqs).1, (multiWalk s reqs).2.1, s) := rfl

theorem multi_eq (s : ZKState) (reqs : List Request) :
    multi s reqs =
      if (multiImpl s reqs).1 = Code.Ok then
        Except.ok ((multiImpl s reqs).2.1, (multiImpl s reqs).2.2)
      else Except.error (multiImpl s reqs).1 := rfl

theorem multi_atomic (s : ZKState) (reqs : List Request) (c : Code) :
    (multi s reqs = Except.error c → (multiImpl s reqs).2.2 = s) ∧
    (∀ r, multi s reqs = Except.ok r →
      r.2 = applyAll s reqs ∧ ∀ cd ∈ r.1, cd = Code.Ok) ∧
    (multiImpl s reqs).2.1.length = reqs.length ∧
    (∀ st, lookupNode st ["missing"] = none → lookupNode st ["x"] = none →
      multi st [Request.create ["x"] "" CreateMode.Persistent,
        Request.set ["missing"] "v" (-1)] = Except.error Code.NodeMissing ∧
      lookupNode (multiImpl st [Request.create ["x"] "" CreateMode.Persistent,
        Request.set ["missing"] "v" (-1)]).2.2 ["x"] = none) := by
  refine ⟨?_, ?_, ?_, ?_⟩
  · intro herr
    have h : ¬ (multiImpl s reqs).1 = Code.Ok := by
      intro h
      rw [multi_eq, if_pos h] at herr
      exact Except.noConfusion herr
    rw [multiImpl_eq] at h ⊢
    by_cases hw : (multiWalk s reqs).1 = Code.Ok
    · rw [if_pos hw] at h
      exact absurd hw h
    · rw [if_neg hw]
  · intro r hr
    by_cases h : (multiImpl s reqs).1 = Code.Ok
    · rw [multi_eq, if_pos h] at hr
      have hr2 : r = ((multiImpl s reqs).2.1, (multiImpl s reqs).2.2) := by
        injection hr with h1
        exact h1.symm
      have hw : (multiWalk s reqs).1 = Code.Ok := by
        rw [multiImpl_eq] at h
        by_cases hw : (multiWalk s reqs).1 = Code.Ok
        · exact hw
        · rw [if_neg hw] at h
          exact absurd h hw
      have happ := multiWalk_ok_applies reqs s hw
      rw [multiImpl_eq, if_pos hw] at hr2
      constructor
      · rw [hr2]
        exact happ.1
      · rw [hr2]
        exact happ.2
    · rw [multi_eq, if_neg h] at hr
      exact Except.noConfusion hr
  · rw [multiImpl_eq]
    by_cases h : (multiWalk s reqs).1 = Code.Ok
    · rw [if_pos h]
      exact multiWalk_length reqs s
    · rw [if_neg h]
      exact multiWalk_length reqs s
  · intro st hmiss hx
    have hcreate : applyRequest st (Request.create ["x"] "" CreateMode.Persistent) =
        (Code.Ok, ((["x"], ⟨"", 0, CreateMode.Persistent⟩) :: st : ZKState)) := by
      show createImpl st ["x"] "" CreateMode.Persistent = _
      unfold createImpl
      rw [hx]
      unfold parentExists
      simp
    have hset : applyRequest ((["x"], ⟨"", 0, CreateMode.Persistent⟩) :: st : ZKState)
        (Request.set ["missing"] "v" (-1)) =
        (Code.NodeMissing, ((["x"], ⟨"", 0, CreateMode.Persistent⟩) :: st : ZKState)) := by
      show setImpl ((["x"], ⟨"", 0, CreateMode.Persistent⟩) :: st : ZKState)
        ["missing"] "v" (-1) = _
      have hm2 : lookupNode ((["x"], ⟨"", 0, CreateMode.Persistent⟩) :: st : ZKState)
          ["missing"] = none := by
        rw [lookupNode_cons, if_neg (by decide)]
        exact hmiss
      unfold setImpl
      rw [hm2]
    have hwalk : multiWalk st [Request.create ["x"] "" CreateMode.Persistent,
        Request.set ["missing"] "v" (-1)] =
        (Code.NodeMissing, [Code.Ok, Code.NodeMissing],
          ((["x"], ⟨"", 0, CreateMode.Persistent⟩) :: st : ZKState)) := by
      unfold multiWalk
      rw [hcreate]
      simp only []
      rw [if_pos trivial]
      unfold multiWalk
      rw [hset]
      simp
    constructor
    · rw [multi_eq, multiImpl_eq, hwalk]
      simp
    · rw [multiImpl_eq, hwalk]
      simp only [if_neg, if_false]
      simp
      exact hx

/-- Witness for C3 on the empty namespace: the example batch raises
NodeMissing and leaves /x absent, and a singleton successful batch commits
with an Ok response per request. -/
theorem multi_atomic_witness :
    ((multi ([] : ZKState) [Request.create ["x"] "" CreateMode.Persistent,
        Request.set ["missing"] "v" (-1)] = Except.error Code.NodeMissing) ∧
      lookupNode (multiImpl ([] : ZKState)
        [Request.create ["x"] "" CreateMode.Persistent,
         Request.set ["missing"] "v" (-1)]).2.2 ["x"] = none) ∧
    ((([Code.Ok], [(["x"], (⟨"", 0, CreateMode.Persistent⟩ : Node))]) :
        List Code × ZKState).2 =
      applyAll ([] : ZKState) [Request.create ["x"] "" CreateMode.Persistent] ∧
      ∀ cd ∈ (([Code.Ok], [(["x"], (⟨"", 0, CreateMode.Persistent⟩ : Node))]) :
        List Code × ZKState).1, cd = Code.Ok) :=
  ⟨(multi_atomic [] [] Code.Ok).2.2.2 [] rfl rfl,
   (multi_atomic ([] : ZKState) [Request.create ["x"] "" CreateMode.Persistent]
      Code.Ok).2.1 ([Code.Ok], [(["x"], ⟨"", 0, CreateMode.Persistent⟩)]) rfl⟩

/-! ## C6: createAncestors creates exactly the strict ancestors -/

theorem createImpl_lookup_ne (s : ZKState) (q : Path) (d : String)
    (m : CreateMode) (r : Path) (h : r ≠ q) :
    lookupNode (createImpl s q d m).2 r = lookupNode s r := by
  unfold createImpl
  rcases hl : lookupNode s q with _ | n
  · by_cases hp : parentExists s q = true
    · simp only [hp, if_pos]
      rw [lookupNode_cons, if_neg (fun hc => h hc.symm)]
    · simp only [hp, if_neg, if_false]
      simp
  · simp only []

theorem createImpl_preserves (s : ZKState) (q : Path) (d : String)
    (m : CreateMode) (r : Path) (n : Node) (h : lookupNode s r = some n) :
    lookupNode (createImpl s q d m).2 r = some n := by
  by_cases hrq : r = q
  · subst hrq
    unfold createImpl
    rw [h]
    exact h
  · rw [createImpl_lookup_ne s q d m r hrq]
    exact h

theorem createImpl_creates (s : ZKState) (q : Path) (d : String)
    (m : CreateMode) (hn : lookupNode s q = none)
    (hp : parentExists s q = true) :
    lookupNode (createImpl s q d m).2 q = some ⟨d, 0, m⟩ := by
  unfold createImpl
  rw [hn]
  simp only [hp, if_pos]
  rw [lookupNode_cons, if_pos rfl]

theorem createEach_preserves (qs : List Path) :
    ∀ s r n, lookupNode s r = some n →
      lookupNode (createEach s qs) r = some n := by
  induction qs with
  | nil =>
    intro s r n h
    exact h
  | cons q0 rest ih =>
    intro s r n h
    exact ih _ r n (createImpl_preserves s q0 "" CreateMode.Persistent r n h)

theorem createEach_frame (qs : List Path) :
    ∀ s r, r ∉ qs → lookupNode (createEach s qs) r = lookupNode s r := by
  induction qs with
  | nil =>
    intro s r _
    rfl
  | cons q0 rest ih =>
    intro s r hr
    have h1 : r ≠ q0 := fun hc => hr (hc ▸ List.mem_cons_self q0 rest)
    have h2 : r ∉ rest := fun hc => hr (List.mem_cons_of_mem q0 hc)
    calc lookupNode (createEach (createImpl s q0 "" CreateMode.Persistent).2 rest) r
        = lookupNode (createImpl s q0 "" CreateMode.Persistent).2 r := ih _ r h2
      _ = lookupNode s r := createImpl_lookup_ne s q0 "" CreateMode.Persistent r h1

theorem ancChain_length (qs : List Path) :
    ∀ prev, ancChain prev qs → ∀ q ∈ qs, prev.length < q.length := by
  induction qs with
  | nil =>
    intro prev _ q hq
    exact absurd hq (List.not_mem_nil q)
  | cons q0 rest ih =>
    intro prev hc q hq
    rcases hc with ⟨hne, hdrop, hrest⟩
    have hlen : q0.length = prev.length + 1 := by
      have := congrArg List.length hdrop
      rw [List.length_dropLast] at this
      have hpos : 0 < q0.length := List.length_pos.mpr hne
      omega
    rcases List.mem_cons.mp hq with h1 | h1
    · subst h1
      omega
    · have := ih q0 hrest q h1
      omega

theorem createEach_chain (qs : List Path) :
    ∀ prev s, (prev = [] ∨ (lookupNode s prev).isSome = true) →
      ancChain prev qs →
      (∀ q ∈ qs, (lookupNode (createEach s qs) q).isSome = true) ∧
      (∀ q ∈ qs, lookupNode s q = none →
        lookupNode (createEach s qs) q = some ⟨"", 0, CreateMode.Persistent⟩) := by
  induction qs with
  | nil =>
    intro prev s _ _
    constructor
    · intro q hq
      exact absurd hq (List.not_mem_nil q)
    · intro q hq
      exact absurd hq (List.not_mem_nil q)
  | cons q0 rest ih =>
    intro prev s hpar hc
    rcases hc with ⟨hne, hdrop, hrest⟩
    have hparent : parentExists s q0 = true := by
      unfold parentExists
      rw [hdrop]
      rcases hpar with h | h
      · subst h
        simp
      · simp [h]
    have hq0some : (lookupNode (createImpl s q0 "" CreateMode.Persistent).2 q0).isSome = true := by
      rcases hl : lookupNode s q0 with _ | n
      · rw [createImpl_creates s q0 "" CreateMode.Persistent hl hparent]
        rfl
      · rw [createImpl_preserves s q0 "" CreateMode.Persistent q0 n hl]
        rfl
    have ihr := ih q0 (createImpl s q0 "" CreateMode.Persistent).2
      (Or.inr hq0some) hrest
    constructor
    · intro q hq
      rcases List.mem_cons.mp hq with h1 | h1
      · rcases ho : lookupNode (createImpl s q0 "" CreateMode.Persistent).2 q0 with _ | n
        · rw [ho] at hq0some
          exact Bool.noConfusion hq0some
        · show (lookupNode (createEach (createImpl s q0 "" CreateMode.Persistent).2 rest) q).isSome = true
          rw [h1, createEach_preserves rest _ q0 n ho]
          rfl
      · exact ihr.1 q h1
    · intro q hq hqnone
      rcases List.mem_cons.mp hq with h1 | h1
      · have hcreated := createImpl_creates s q0 "" CreateMode.Persistent
          (h1 ▸ hqnone) hparent
        show lookupNode (createEach (createImpl s q0 "" CreateMode.Persistent).2 rest) q = _
        rw [h1]
        exact createEach_preserves rest _ q0 _ hcreated
      · have hlen : q0.length < q.length := ancChain_length rest q0 hrest q h1
        have hq0q : q ≠ q0 := by
          intro hc
          subst hc
          omega
        have hstill : lookupNode (createImpl s q0 "" CreateMode.Persistent).2 q = none := by
          rw [createImpl_lookup_ne s q0 "" CreateMode.Persistent q hq0q]
          exact hqnone
        exact ihr.2 q h1 hstill

theorem dropLast_take_succ (p : Path) (j : Nat) (h : j + 1 ≤ p.length) :
    (p.take (j + 1)).dropLast = p.take j := by
  rw [List.dropLast_eq_take]
  rw [List.length_take]
  have hmin : min (j + 1) p.length = j + 1 := by omega
  rw [hmin]
  rw [List.take_take]
  have : j + 1 - 1 = j := by omega
  rw [this]
  congr 1
  omega

theorem take_succ_ne_nil (p : Path) (j : Nat) (h : j + 1 ≤ p.length) :
    p.take (j + 1) ≠ [] := by
  intro hc
  have hlen := congrArg List.length hc
  rw [List.length_take] at hlen
  simp only [List.length_nil] at hlen
  omega

theorem ancChain_take (p : Path) :
    ∀ m j, j + m ≤ p.length →
      ancChain (p.take j) ((List.range m).map (fun i => p.take (j + i + 1))) := by
  intro m
  induction m with
  | zero =>
    intro j _
    exact trivial
  | succ m1 ih =>
    intro j hj
    rw [List.range_succ_eq_map]
    rw [List.map_cons, List.map_map]
    refine ⟨take_succ_ne_nil p j (by omega), dropLast_take_succ p j (by omega), ?_⟩
    have harith : ((fun i => p.take (j + i + 1)) ∘ Nat.succ) =
        (fun i => p.take (j + 1 + i + 1)) := by
      funext i
      show p.take (j + (i + 1) + 1) = p.take (j + 1 + i + 1)
      congr 1
      omega
    rw [harith]
    exact ih (j + 1) (by omega)

theorem ancChain_strictAncestors (p : Path) :
    ancChain [] (strictAncestors p) := by
  unfold strictAncestors
  have h := ancChain_take p (p.length - 1) 0 (by omega)
  rw [List.take_zero] at h
  have harith : (fun i => p.take (0 + i + 1)) = (fun i => p.take (i + 1)) := by
    funext i
    congr 1
    omega
  rw [harith] at h
  exact h

theorem mem_strictAncestors (p q : Path) (hne : q ≠ []) (hpre : q <+: p)
    (hq : q ≠ p) : q ∈ strictAncestors p := by
  have hlen : q.length < p.length := by
    rcases Nat.lt_or_ge q.length p.length with h | h
    · exact h
    · exfalso
      have hle := hpre.length_le
      have heq : q.length = p.length := by omega
      exact hq (hpre.eq_of_length heq)
  have hpos : 0 < q.length := List.length_pos.mpr hne
  have htake : q = p.take q.length := List.prefix_iff_eq_take.mp hpre
  unfold strictAncestors
  rw [List.mem_map]
  refine ⟨q.length - 1, ?_, ?_⟩
  · rw [List.mem_range]
    omega
  · rw [show q.length - 1 + 1 = q.length by omega]
    exact htake.symm

theorem self_not_mem_strictAncestors (p : Path) : p ∉ strictAncestors p := by
  unfold strictAncestors
  rw [List.mem_map]
  rintro ⟨i, hi, hq⟩
  rw [List.mem_range] at hi
  have := congrArg List.length hq
  rw [List.length_take] at this
  omega

/-- C6: after createAncestors(p) every strict ancestor of p exists; the
leaf p itself is untouched; every node already present (NodeExists on a
segment) is unchanged; and each previously absent strict ancestor was
created as Persistent with empty content. -/
theorem createAncestors_spec (s : ZKState) (p : Path) :
    (∀ q, q ≠ [] → q <+: p → q ≠ p →
      (lookupNode (createAncestors s p) q).isSome = true) ∧
    lookupNode (createAncestors s p) p = lookupNode s p ∧
    (∀ q n, lookupNode s q = some n →
      lookupNode (createAncestors s p) q = some n) ∧
    (∀ q, q ≠ [] → q <+: p → q ≠ p → lookupNode s q = none →
      lookupNode (createAncestors s p) q = some ⟨"", 0, CreateMode.Persistent⟩) := by
  have hchain := ancChain_strictAncestors p
  have hmain := createEach_chain (strictAncestors p) [] s (Or.inl rfl) hchain
  refine ⟨?_, ?_, ?_, ?_⟩
  · intro q h1 h2 h3
    exact hmain.1 q (mem_strictAncestors p q h1 h2 h3)
  · exact createEach_frame (strictAncestors p) s p (self_not_mem_strictAncestors p)
  · intro q n h
    exact createEach_preserves (strictAncestors p) s q n h
  · intro q h1 h2 h3 h4
    exact hmain.2 q (mem_strictAncestors p q h1 h2 h3) h4

/-- Witness for C6: on the empty namespace with p = /a/b/c, the strict
ancestor /a exists afterwards, was created Persistent with empty content,
and the leaf itself is untouched. -/
theorem createAncestors_spec_witness :
    (lookupNode (createAncestors [] ["a", "b", "c"]) ["a"]).isSome = true ∧
    lookupNode (createAncestors [] ["a", "b", "c"]) ["a", "b", "c"] =
      lookupNode [] ["a", "b", "c"] ∧
    lookupNode (createAncestors [] ["a", "b", "c"]) ["a", "b"] =
      some ⟨"", 0, CreateMode.Persistent⟩ :=
  ⟨(createAncestors_spec [] ["a", "b", "c"]).1 ["a"] (by decide)
      ⟨["b", "c"], rfl⟩ (by decide),
   (createAncestors_spec [] ["a", "b", "c"]).2.1,
   (createAncestors_spec [] ["a", "b", "c"]).2.2.2 ["a", "b"] (by decide)
      ⟨["c"], rfl⟩ (by decide) rfl⟩

/-! ## C4: tryRemoveRecursive is idempotent -/

theorem getChildrenImpl_missing (s : ZKState) (p : Path)
    (h : lookupNode s p = none) :
    getChildrenImpl s p = (Code.NodeMissing, []) := by
  unfold getChildrenImpl
  rw [h]

theorem getChildrenImpl_some (s : ZKState) (p : Path) (n : Node)
    (h : lookupNode s p = some n) :
    getChildrenImpl s p = (Code.Ok, childNames s p) := by
  unfold getChildrenImpl
  rw [h]

theorem tryRemoveChildrenRec_zero (s : ZKState) (p : Path) :
    tryRemoveChildrenRec 0 s p = (s, true) := by
  unfold tryRemoveChildrenRec
  rfl

theorem tryRemoveChildrenRec_succ_missing (f : Nat) (s : ZKState) (p : Path)
    (h : lookupNode s p = none) :
    tryRemoveChildrenRec (f + 1) s p = (s, true) := by
  unfold tryRemoveChildrenRec
  rw [getChildrenImpl_missing s p h]

theorem tryRemoveChildrenRec_succ_some (f : Nat) (s : ZKState) (p : Path)
    (n : Node) (h : lookupNode s p = some n) :
    tryRemoveChildrenRec (f + 1) s p = tryRemoveKids f s p (childNames s p) := by
  unfold tryRemoveChildrenRec
  rw [getChildrenImpl_some s p n h]

theorem tryRemoveKids_nil (fuel : Nat) (s : ZKState) (p : Path) :
    tryRemoveKids fuel s p [] = (s, true) := by
  unfold tryRemoveKids
  rfl

theorem tryRemoveKids_cons (fuel : Nat) (s : ZKState) (p : Path) (c : String)
    (cs : List String) :
    tryRemoveKids fuel s p (c :: cs) =
      ((tryRemoveKids fuel
          (removeImpl (tryRemoveChildrenRec fuel s (p ++ [c])).1 (p ++ [c]) (-1)).2
          p cs).1,
        (tryRemoveChildrenRec fuel s (p ++ [c])).2 &&
          tryRemoveAbsorbs (removeImpl (tryRemoveChildrenRec fuel s (p ++ [c])).1 (p ++ [c]) (-1)).1 &&
          (tryRemoveKids fuel
            (removeImpl (tryRemoveChildrenRec fuel s (p ++ [c])).1 (p ++ [c]) (-1)).2
            p cs).2) := by
  simp only [tryRemoveKids]

theorem removeImpl_missing (s : ZKState) (p : Path) (v : Int)
    (h : lookupNode s p = none) : removeImpl s p v = (Code.NodeMissing, s) := by
  unfold removeImpl
  rw [h]

theorem removeImpl_ok (s : ZKState) (p : Path) (n : Node)
    (h : lookupNode s p = some n) (hc : childNames s p = []) :
    removeImpl s p (-1) = (Code.Ok, eraseNode s p) := by
  unfold removeImpl
  rw [h]
  dsimp only
  rw [if_neg (by simp [hc])]
  rw [if_pos (Or.inl rfl)]

theorem removeImpl_state (s : ZKState) (p : Path) (v : Int) :
    (removeImpl s p v).2 = s ∨
      ((removeImpl s p v).2 = eraseNode s p ∧ childNames s p = []) := by
  unfold removeImpl
  rcases h : lookupNode s p with _ | n
  · exact Or.inl rfl
  · dsimp only
    by_cases hc : childNames s p = []
    · by_cases hv : v = -1 ∨ v = n.version
      · rw [if_neg (by simp [hc]), if_pos hv]
        exact Or.inr ⟨rfl, hc⟩
      · rw [if_neg (by simp [hc]), if_neg hv]
        exact Or.inl rfl
    · rw [if_pos (by simp [hc])]
      exact Or.inl rfl

theorem removeImpl_sublist (s : ZKState) (p : Path) (v : Int) :
    List.Sublist (removeImpl s p v).2 s := by
  rcases removeImpl_state s p v with h | ⟨h, _⟩
  · rw [h]
  · rw [h]
    exact eraseNode_sublist s p

theorem mem_keys_eraseNode (s : ZKState) (p q : Path)
    (hq : q ∈ keys s) (hne : q ≠ p) : q ∈ keys (eraseNode s p) := by
  rcases keys_exists_entry s q hq with ⟨n, hn⟩
  have : ((q, n) : Path × Node) ∈ eraseNode s p := by
    rw [eraseNode, List.mem_filter]
    exact ⟨hn, by simp [hne]⟩
  exact List.mem_map.mpr ⟨(q, n), this, rfl⟩

theorem childNames_ne_nil_of_parent (s : ZKState) (q : Path)
    (e : Path × Node) (he : e ∈ s) (hne : e.1 ≠ [])
    (hdrop : e.1.dropLast = q) : childNames s q ≠ [] := by
  have hsplit : e.1 = q ++ [e.1.getLast hne] := by
    calc e.1 = e.1.dropLast ++ [e.1.getLast hne] :=
          (List.dropLast_append_getLast hne).symm
      _ = q ++ [e.1.getLast hne] := by rw [hdrop]
  have hmem : e.1.getLast hne ∈ childNames s q := by
    rw [mem_childNames_iff]
    exact ⟨e.2, by rw [← hsplit, Prod.mk.eta]; exact he⟩
  intro hc
  rw [hc] at hmem
  exact absurd hmem (List.not_mem_nil _)

theorem removeImpl_WF (s : ZKState) (p : Path) (v : Int) (hw : WFz s) :
    WFz (removeImpl s p v).2 := by
  rcases removeImpl_state s p v with h | ⟨h, hc⟩
  · rw [h]
    exact hw
  · rw [h]
    intro e he
    have hes : e ∈ s := (eraseNode_sublist s p).subset he
    rcases hw e hes with ⟨hne, hpar⟩
    refine ⟨hne, ?_⟩
    rcases hpar with h1 | h1
    · exact Or.inl h1
    · refine Or.inr ?_
      have hnp : e.1.dropLast ≠ p := by
        intro hdp
        exact childNames_ne_nil_of_parent s p e hes hne hdp hc
      exact mem_keys_eraseNode s p e.1.dropLast h1 hnp

theorem tryRemoveKids_sublist (fuel : Nat)
    (ih : ∀ s p, List.Sublist (tryRemoveChildrenRec fuel s p).1 s) :
    ∀ cs s p, List.Sublist (tryRemoveKids fuel s p cs).1 s := by
  intro cs
  induction cs with
  | nil =>
    intro s p
    rw [tryRemoveKids_nil]
  | cons c rest ihc =>
    intro s p
    rw [tryRemoveKids_cons]
    exact ((ihc _ p).trans (removeImpl_sublist _ _ _)).trans (ih s (p ++ [c]))

theorem tryRemoveChildrenRec_sublist :
    ∀ fuel s p, List.Sublist (tryRemoveChildrenRec fuel s p).1 s := by
  intro fuel
  induction fuel with
  | zero =>
    intro s p
    rw [tryRemoveChildrenRec_zero]
  | succ f ih =>
    intro s p
    rcases h : lookupNode s p with _ | n
    · rw [tryRemoveChildrenRec_succ_missing f s p h]
    · rw [tryRemoveChildrenRec_succ_some f s p n h]
      exact tryRemoveKids_sublist f ih (childNames s p) s p

theorem tryRemoveKids_WF (fuel : Nat)
    (ih : ∀ s p, WFz s → WFz (tryRemoveChildrenRec fuel s p).1) :
    ∀ cs s p, WFz s → WFz (tryRemoveKids fuel s p cs).1 := by
  intro cs
  induction cs with
  | nil =>
    intro s p hw
    rw [tryRemoveKids_nil]
    exact hw
  | cons c rest ihc =>
    intro s p hw
    rw [tryRemoveKids_cons]
    exact ihc _ p (removeImpl_WF _ _ _ (ih s (p ++ [c]) hw))

theorem tryRemoveChildrenRec_WF :
    ∀ fuel s p, WFz s → WFz (tryRemoveChildrenRec fuel s p).1 := by
  intro fuel
  induction fuel with
  | zero =>
    intro s p hw
    rw [tryRemoveChildrenRec_zero]
    exact hw
  | succ f ih =>
    intro s p hw
    rcases h : lookupNode s p with _ | n
    · rw [tryRemoveChildrenRec_succ_missing f s p h]
      exact hw
    · rw [tryRemoveChildrenRec_succ_some f s p n h]
      exact tryRemoveKids_WF f ih (childNames s p) s p hw

theorem tryRemoveKids_flag (fuel : Nat)
    (ih : ∀ s p, (tryRemoveChildrenRec fuel s p).2 = true) :
    ∀ cs s p, (tryRemoveKids fuel s p cs).2 = true := by
  intro cs
  induction cs with
  | nil =>
    intro s p
    rw [tryRemoveKids_nil]
  | cons c rest ihc =>
    intro s p
    rw [tryRemoveKids_cons]
    simp only [Bool.and_eq_true]
    exact ⟨⟨ih s (p ++ [c]), tryRemoveAbsorbs_removeImpl _ _ _⟩, ihc _ p⟩

theorem tryRemoveChildrenRec_flag :
    ∀ fuel s p, (tryRemoveChildrenRec fuel s p).2 = true := by
  intro fuel
  induction fuel with
  | zero =>
    intro s p
    rw [tryRemoveChildrenRec_zero]
  | succ f ih =>
    intro s p
    rcases h : lookupNode s p with _ | n
    · rw [tryRemoveChildrenRec_succ_missing f s p h]
    · rw [tryRemoveChildrenRec_succ_some f s p n h]
      exact tryRemoveKids_flag f ih (childNames s p) s p

theorem strictDescCount_le_of_sublist (s1 s : ZKState) (p : Path)
    (h : List.Sublist s1 s) : strictDescCount s1 p ≤ strictDescCount s p :=
  List.Sublist.countP_le _ h

theorem strictDescCount_le_length (s : ZKState) (p : Path) :
    strictDescCount s p ≤ s.length :=
  List.countP_le_length _

theorem ne_append_singleton (p : Path) (c : String) : p ≠ p ++ [c] := by
  intro hc
  have := congrArg List.length hc
  rw [List.length_append] at this
  simp at this

theorem append_singleton_ne_nil (p : Path) (c : String) : p ++ [c] ≠ [] := by
  intro hc
  have := congrArg List.length hc
  rw [List.length_append] at this
  simp at this

theorem strictDescCount_child_lt (s : ZKState) (p : Path) (c : String)
    (h : (p ++ [c]) ∈ keys s) :
    strictDescCount s (p ++ [c]) < strictDescCount s p := by
  unfold strictDescCount
  rcases keys_exists_entry s (p ++ [c]) h with ⟨n, hn⟩
  have himp : ∀ e : Path × Node,
      ((p ++ [c]) <+: e.1 ∧ (p ++ [c]) ≠ e.1) → (p <+: e.1 ∧ p ≠ e.1) := by
    rintro e ⟨h1, h2⟩
    constructor
    · exact (List.prefix_append p [c]).trans h1
    · intro hc2
      subst hc2
      have := h1.length_le
      rw [List.length_append] at this
      simp at this
    -- prefix length bound forbids p ++ [c] <+: p
  have e0mem : ((p ++ [c], n) : Path × Node) ∈
      s.filter (fun e => decide (p <+: e.1 ∧ p ≠ e.1)) := by
    rw [List.mem_filter]
    refine ⟨hn, ?_⟩
    simp only [decide_eq_true_eq]
    exact ⟨List.prefix_append p [c], ne_append_singleton p c⟩
  have hfe : s.countP (fun e => decide ((p ++ [c]) <+: e.1 ∧ (p ++ [c]) ≠ e.1)) =
      (s.filter (fun e => decide (p <+: e.1 ∧ p ≠ e.1))).countP
        (fun e => decide ((p ++ [c]) <+: e.1 ∧ (p ++ [c]) ≠ e.1)) := by
    rw [List.countP_filter]
    apply List.countP_congr
    intro e _
    rcases hd : decide ((p ++ [c]) <+: e.1 ∧ (p ++ [c]) ≠ e.1) with _ | _
    · simp
    · have hde := of_decide_eq_true hd
      have := himp e hde
      simp [hde, this]
  rw [hfe]
  have hle : (s.filter (fun e => decide (p <+: e.1 ∧ p ≠ e.1))).countP
      (fun e => decide ((p ++ [c]) <+: e.1 ∧ (p ++ [c]) ≠ e.1)) ≤
      (s.filter (fun e => decide (p <+: e.1 ∧ p ≠ e.1))).length :=
    List.countP_le_length _
  have hnee : (s.filter (fun e => decide (p <+: e.1 ∧ p ≠ e.1))).countP
      (fun e => decide ((p ++ [c]) <+: e.1 ∧ (p ++ [c]) ≠ e.1)) ≠
      (s.filter (fun e => decide (p <+: e.1 ∧ p ≠ e.1))).length := by
    intro heq
    have hall := List.countP_eq_length.mp heq _ e0mem
    simp only [decide_eq_true_eq] at hall
    exact hall.2 rfl
  have hflen : s.countP (fun e => decide (p <+: e.1 ∧ p ≠ e.1)) =
      (s.filter (fun e => decide (p <+: e.1 ∧ p ≠ e.1))).length :=
    List.countP_eq_length_filter _ _
  omega

theorem ancestor_mem_keys (s : ZKState) (hw : WFz s) :
    ∀ d q r, r ≠ [] → r <+: q → q.length = r.length + d → q ∈ keys s →
      r ∈ keys s := by
  intro d
  induction d with
  | zero =>
    intro q r _ hpre hlen hq
    have heq : r = q := hpre.eq_of_length (by omega)
    rwa [heq]
  | succ d1 ih =>
    intro q r hr hpre hlen hq
    rcases keys_exists_entry s q hq with ⟨n, hn⟩
    have hWF := hw (q, n) hn
    have hrpos : 0 < r.length := List.length_pos.mpr hr
    have hdq : q.dropLast ∈ keys s := by
      rcases hWF.2 with h1 | h1
      · exfalso
        have := congrArg List.length h1
        rw [List.length_dropLast] at this
        simp at this
        omega
      · exact h1
    have hpre2 : r <+: q.dropLast := by
      have h1 : r = q.take r.length := List.prefix_iff_eq_take.mp hpre
      rw [List.dropLast_eq_take]
      have h2 : (q.take (q.length - 1)).take r.length = r := by
        rw [List.take_take]
        rw [show min r.length (q.length - 1) = r.length by omega]
        exact h1.symm
      rw [← h2]
      exact List.take_prefix _ _
    refine ih q.dropLast r hr hpre2 ?_ hdq
    rw [List.length_dropLast]
    omega

theorem mem_keys_of_prefix_of_mem (s : ZKState) (hw : WFz s) (q r : Path)
    (hr : r ≠ []) (hpre : r <+: q) (hq : q ∈ keys s) : r ∈ keys s :=
  ancestor_mem_keys s hw (q.length - r.length) q r hr hpre
    (by have := hpre.length_le; omega) hq

theorem tryRemoveKids_complete (fuel : Nat)
    (ih : ∀ s p, WFz s → p ≠ [] → strictDescCount s p < fuel →
      ∀ q, p <+: q → p ≠ q →
        lookupNode (tryRemoveChildrenRec fuel s p).1 q = none) :
    ∀ cs s p, WFz s → (∀ c2 ∈ cs, strictDescCount s (p ++ [c2]) < fuel) →
      ∀ c ∈ cs, ∀ q, (p ++ [c]) <+: q →
        lookupNode (tryRemoveKids fuel s p cs).1 q = none := by
  intro cs
  induction cs with
  | nil =>
    intro s p _ _ c hc
    exact absurd hc (List.not_mem_nil c)
  | cons c0 rest ihc =>
    intro s p hw hcnt c hc q hq
    rw [tryRemoveKids_cons]
    have hsub1 : List.Sublist
        (removeImpl (tryRemoveChildrenRec fuel s (p ++ [c0])).1 (p ++ [c0]) (-1)).2 s :=
      (removeImpl_sublist _ _ _).trans (tryRemoveChildrenRec_sublist fuel s (p ++ [c0]))
    rcases List.mem_cons.mp hc with hcc | hcc
    · -- c is the child currently being processed
      have hdesc : ∀ q2, (p ++ [c0]) <+: q2 → (p ++ [c0]) ≠ q2 →
          lookupNode (tryRemoveChildrenRec fuel s (p ++ [c0])).1 q2 = none :=
        ih s (p ++ [c0]) hw (append_singleton_ne_nil p c0)
          (hcnt c0 (List.mem_cons_self c0 rest))
      have hgone : lookupNode
          (removeImpl (tryRemoveChildrenRec fuel s (p ++ [c0])).1 (p ++ [c0]) (-1)).2 q = none := by
        by_cases hqe : (p ++ [c0]) = q
        · rcases hl : lookupNode (tryRemoveChildrenRec fuel s (p ++ [c0])).1 (p ++ [c0]) with _ | n
          · rw [removeImpl_missing _ _ _ hl]
            rw [← hqe]
            exact hl
          · have hnochild : childNames (tryRemoveChildrenRec fuel s (p ++ [c0])).1 (p ++ [c0]) = [] := by
              apply childNames_eq_nil_of_no_child
              intro c2 hmem
              have := hdesc (p ++ [c0] ++ [c2])
                (List.prefix_append _ _) (ne_append_singleton _ _)
              rw [lookupNode_eq_none_iff] at this
              exact this hmem
            rw [removeImpl_ok _ _ n hl hnochild]
            rw [← hqe]
            exact lookupNode_eraseNode_self _ _
        · have h1 : lookupNode (tryRemoveChildrenRec fuel s (p ++ [c0])).1 q = none := by
            rw [hcc] at hq
            exact hdesc q hq hqe
          exact lookupNode_none_of_sublist _ _ q (removeImpl_sublist _ _ _) h1
      exact lookupNode_none_of_sublist _ _ q
        (tryRemoveKids_sublist fuel (tryRemoveChildrenRec_sublist fuel) rest _ p) hgone
    · -- c comes later in the list
      apply ihc _ p
      · exact removeImpl_WF _ _ _ (tryRemoveChildrenRec_WF fuel s (p ++ [c0]) hw)
      · intro c2 hc2
        have := strictDescCount_le_of_sublist _ s (p ++ [c2]) hsub1
        have h2 := hcnt c2 (List.mem_cons_of_mem c0 hc2)
        omega
      · exact hcc
      · exact hq

theorem tryRemoveChildrenRec_complete :
    ∀ fuel s p, WFz s → p ≠ [] → strictDescCount s p < fuel →
      ∀ q, p <+: q → p ≠ q →
        lookupNode (tryRemoveChildrenRec fuel s p).1 q = none := by
  intro fuel
  induction fuel with
  | zero =>
    intro s p _ _ hcnt
    exact absurd hcnt (Nat.not_lt_zero _)
  | succ f ih =>
    intro s p hw hp hcnt q hpre hne
    rcases hl : lookupNode s p with _ | n
    · rw [tryRemoveChildrenRec_succ_missing f s p hl]
      rw [lookupNode_eq_none_iff]
      intro hqk
      have hpk : p ∈ keys s := mem_keys_of_prefix_of_mem s hw q p hp hpre hqk
      rw [lookupNode_eq_none_iff] at hl
      exact hl hpk
    · rw [tryRemoveChildrenRec_succ_some f s p n hl]
      by_cases hqs : q ∈ keys s
      · rcases hpre with ⟨t, ht⟩
        have htne : t ≠ [] := by
          intro hc
          rw [hc, List.append_nil] at ht
          exact hne ht
        rcases t with _ | ⟨c, t2⟩
        · exact absurd rfl htne
        · have hpc : (p ++ [c]) <+: q := ⟨t2, by rw [← ht]; simp⟩
          have hpck : (p ++ [c]) ∈ keys s :=
            mem_keys_of_prefix_of_mem s hw q (p ++ [c])
              (append_singleton_ne_nil p c) hpc hqs
          have hcmem : c ∈ childNames s p := by
            rw [mem_childNames_iff]
            exact keys_exists_entry s (p ++ [c]) hpck
          apply tryRemoveKids_complete f ih (childNames s p) s p hw ?_ c hcmem q hpc
          intro c2 hc2
          rcases (mem_childNames_iff s p c2).mp hc2 with ⟨n2, hn2⟩
          have hmem2 : (p ++ [c2]) ∈ keys s :=
            List.mem_map.mpr ⟨(p ++ [c2], n2), hn2, rfl⟩
          have := strictDescCount_child_lt s p c2 hmem2
          omega
      · have h0 : lookupNode s q = none := (lookupNode_eq_none_iff s q).mpr hqs
        exact lookupNode_none_of_sublist _ s q
          (tryRemoveKids_sublist f (tryRemoveChildrenRec_sublist f) (childNames s p) s p) h0

theorem tryRemoveRecursive_eq (s : ZKState) (p : Path) :
    tryRemoveRecursive s p =
      ((removeImpl (tryRemoveChildrenRec (removalFuel s) s p).1 p (-1)).2,
        (tryRemoveChildrenRec (removalFuel s) s p).2 &&
          tryRemoveAbsorbs
            (removeImpl (tryRemoveChildrenRec (removalFuel s) s p).1 p (-1)).1) := rfl

theorem tryRemoveRecursive_absent (s : ZKState) (p : Path)
    (hw : WFz s) (hp : p ≠ []) :
    ∀ q, p <+: q → lookupNode (tryRemoveRecursive s p).1 q = none := by
  intro q hq
  have hfuel : strictDescCount s p < removalFuel s := by
    unfold removalFuel
    have := strictDescCount_le_length s p
    omega
  have hcompl := tryRemoveChildrenRec_complete (removalFuel s) s p hw hp hfuel
  rw [tryRemoveRecursive_eq]
  by_cases hqe : p = q
  · rcases hl : lookupNode (tryRemoveChildrenRec (removalFuel s) s p).1 p with _ | n
    · rw [removeImpl_missing _ _ _ hl]
      rw [← hqe]
      exact hl
    · have hnochild : childNames (tryRemoveChildrenRec (removalFuel s) s p).1 p = [] := by
        apply childNames_eq_nil_of_no_child
        intro c2 hmem
        have := hcompl (p ++ [c2]) (List.prefix_append _ _) (ne_append_singleton _ _)
        rw [lookupNode_eq_none_iff] at this
        exact this hmem
      rw [removeImpl_ok _ _ n hl hnochild]
      rw [← hqe]
      exact lookupNode_eraseNode_self _ _
  · have h1 : lookupNode (tryRemoveChildrenRec (removalFuel s) s p).1 q = none :=
      hcompl q hq hqe
    exact lookupNode_none_of_sublist _ _ q (removeImpl_sublist _ _ _) h1

/-- C4: tryRemoveRecursive is idempotent on a well-formed subtree: both the
first and the second invocation succeed (no step of either raises), the
second invocation leaves the state of the first unchanged, and after the
two calls p and every descendant of p are absent — the same final state as
a single call. -/
theorem tryRemoveRecursive_idempotent (s : ZKState) (p : Path)
    (hw : WFz s) (hp : p ≠ []) :
    (tryRemoveRecursive s p).2 = true ∧
    (tryRemoveRecursive (tryRemoveRecursive s p).1 p).2 = true ∧
    (tryRemoveRecursive (tryRemoveRecursive s p).1 p).1 =
      (tryRemoveRecursive s p).1 ∧
    ∀ q, p <+: q →
      lookupNode (tryRemoveRecursive (tryRemoveRecursive s p).1 p).1 q = none := by
  have habsent := tryRemoveRecursive_absent s p hw hp
  have hs1p : lookupNode (tryRemoveRecursive s p).1 p = none :=
    habsent p (List.prefix_refl p)
  have hrec2 : tryRemoveChildrenRec (removalFuel (tryRemoveRecursive s p).1)
      (tryRemoveRecursive s p).1 p = ((tryRemoveRecursive s p).1, true) := by
    unfold removalFuel
    exact tryRemoveChildrenRec_succ_missing _ _ p hs1p
  have hsecond : tryRemoveRecursive (tryRemoveRecursive s p).1 p =
      ((tryRemoveRecursive s p).1, true) := by
    rw [tryRemoveRecursive_eq, hrec2]
    rw [removeImpl_missing _ _ _ hs1p]
    rfl
  refine ⟨?_, ?_, ?_, ?_⟩
  · rw [tryRemoveRecursive_eq]
    rw [tryRemoveChildrenRec_flag (removalFuel s) s p]
    rw [tryRemoveAbsorbs_removeImpl]
    rfl
  · rw [hsecond]
  · rw [hsecond]
  · intro q hq
    rw [hsecond]
    exact habsent q hq

/-- Witness for C4 on the two-node subtree /a, /a/b of a well-formed
namespace. -/
theorem tryRemoveRecursive_idempotent_witness :
    (tryRemoveRecursive
        [(["a"], ⟨"d", 0, CreateMode.Persistent⟩),
         (["a", "b"], ⟨"e", 0, CreateMode.Ephemeral⟩)] ["a"]).2 = true ∧
    (tryRemoveRecursive (tryRemoveRecursive
        [(["a"], ⟨"d", 0, CreateMode.Persistent⟩),
         (["a", "b"], ⟨"e", 0, CreateMode.Ephemeral⟩)] ["a"]).1 ["a"]).2 = true ∧
    (tryRemoveRecursive (tryRemoveRecursive
        [(["a"], ⟨"d", 0, CreateMode.Persistent⟩),
         (["a", "b"], ⟨"e", 0, CreateMode.Ephemeral⟩)] ["a"]).1 ["a"]).1 =
      (tryRemoveRecursive
        [(["a"], ⟨"d", 0, CreateMode.Persistent⟩),
         (["a", "b"], ⟨"e", 0, CreateMode.Ephemeral⟩)] ["a"]).1 ∧
    ∀ q, ["a"] <+: q →
      lookupNode (tryRemoveRecursive (tryRemoveRecursive
        [(["a"], ⟨"d", 0, CreateMode.Persistent⟩),
         (["a", "b"], ⟨"e", 0, CreateMode.Ephemeral⟩)] ["a"]).1 ["a"]).1 q = none :=
  tryRemoveRecursive_idempotent
    [(["a"], ⟨"d", 0, CreateMode.Persistent⟩),
     (["a", "b"], ⟨"e", 0, CreateMode.Ephemeral⟩)] ["a"]
    (by unfold WFz; decide) (by decide)

end zkutil
